import Mathlib

/-!
Verification of the breadboard-to-SPICE netlist core (`circuit_solver.py`):
hole canonicalization (`hole_to_node`), connectivity resolution
(`build_node_map`) and netlist serialization (`generate_spice_netlist`).

The Python dictionaries are embedded as insertion-ordered association
lists (`List (String × Nat)`): `findVal` is dictionary lookup and
`setKey` is dictionary assignment (update in place when the key is
present, append otherwise).  Python's `IndexError` on the per-type
counter array is embedded by making serialization return `Option String`
(`none` models a raised exception).
-/

-- Data model -----------------------------------------------------------------

/-- Wire record: `[id, name, [foot1, foot2]]` in the Python source. -/
structure Wire where
  wid : Int
  wname : String
  foot1 : String
  foot2 : String
deriving DecidableEq

/-- Component record: `(id, name, [feet], spec)` in the Python source. -/
structure Component where
  cid : Int
  cname : String
  feet : List String
  spec : String
deriving DecidableEq

/-- Dictionary lookup on an insertion-ordered association list. -/
def findVal (m : List (String × Nat)) (k : String) : Option Nat :=
  match m with
  | [] => none
  | kv :: rest => if kv.1 = k then some kv.2 else findVal rest k

/-- Dictionary assignment `d[k] = v`: update in place when present, append otherwise. -/
def setKey (m : List (String × Nat)) (k : String) (v : Nat) : List (String × Nat) :=
  match m with
  | [] => [(k, v)]
  | kv :: rest => if kv.1 = k then (k, v) :: rest else kv :: setKey rest k v

/-- Lookup in the `remap` dictionary (integer keys). -/
def findNat (m : List (Nat × Nat)) (k : Nat) : Option Nat :=
  match m with
  | [] => none
  | kv :: rest => if kv.1 = k then some kv.2 else findNat rest k

-- Hole canonicalizer ----------------------------------------------------------

/-- Embedding of `hole_to_node`: maps a physical hole label to its canonical
electrical bus.  Rows A-E collapse to `A`+column, rows F-J collapse to
`F`+column, anything else passes through as its first two characters, and
the empty label maps to the empty string. -/
def hole_to_node (hole : String) : String :=
  match hole.data with
  | [] => ""
  | c :: rest =>
    if 'A' ≤ c ∧ c < 'F' then String.mk ('A' :: rest)
    else if 'F' ≤ c ∧ c < 'K' then String.mk ('F' :: rest)
    else String.mk ((c :: rest).take 2)

-- Connectivity resolver -------------------------------------------------------

/-- Embedding of the per-wire body of the resolver loop in `build_node_map`:
both endpoints absent allocates a fresh shared id, one absent copies the
existing id, both present with distinct ids merges by rewriting every
entry carrying the larger id to the smaller id. -/
def processWire (mc : List (String × Nat) × Nat) (w : Wire) : List (String × Nat) × Nat :=
  let m := mc.1
  let counter := mc.2
  let node1 := hole_to_node w.foot1
  let node2 := hole_to_node w.foot2
  match findVal m node1, findVal m node2 with
  | none, none => (setKey (setKey m node1 counter) node2 counter, counter + 1)
  | some v1, none => (setKey m node2 v1, counter)
  | none, some v2 => (setKey m node1 v2, counter)
  | some v1, some v2 =>
    if v1 ≠ v2 then
      (m.map (fun kv => if kv.2 = max v1 v2 then (kv.1, min v1 v2) else kv), counter)
    else (m, counter)

/-- Ground initialization in `build_node_map`: every ground hole's canonical
bus is assigned NodeID 0. -/
def initGrounds (grounds : List String) : List (String × Nat) :=
  grounds.foldl (fun m g => setKey m (hole_to_node g) 0) []

/-- One full scan over the wire list. -/
def onePass (wires : List Wire) (mc : List (String × Nat) × Nat) : List (String × Nat) × Nat :=
  wires.foldl processWire mc

/-- Embedding of `build_node_map`: grounds to 0, then `len(wires) + 1` full
passes over the wires, starting from counter 1. -/
def build_node_map (wires : List Wire) (grounds : List String) : List (String × Nat) × Nat :=
  (onePass wires)^[wires.length + 1] (initGrounds grounds, 1)

-- Serializer: pre-scan over component terminals -------------------------------

/-- Flag insertion (`flags[node] = True`): dictionary-of-booleans embedded as
the list of its keys. -/
def addFlag (flags : List String) (n : String) : List String :=
  if n ∈ flags then flags else flags ++ [n]

/-- Embedding of the per-terminal body of the serializer pre-scan: a bus
already in the mapping is flagged as touched, an absent bus is assigned a
fresh provisional id and left unflagged. -/
def scanFoot (st : List (String × Nat) × Nat × List String) (foot : String) :
    List (String × Nat) × Nat × List String :=
  if (findVal st.1 (hole_to_node foot)).isSome then
    (st.1, st.2.1, addFlag st.2.2 (hole_to_node foot))
  else (setKey st.1 (hole_to_node foot) st.2.1, st.2.1 + 1, st.2.2)

/-- The serializer's pre-scan over every terminal of every component. -/
def preScan (comps : List Component) (st : List (String × Nat) × Nat × List String) :
    List (String × Nat) × Nat × List String :=
  comps.foldl (fun s c => c.feet.foldl scanFoot s) st

/-- State of the serializer after resolving connectivity and pre-scanning
component terminals: the node mapping, the next free provisional id, and
the set of touched (flagged) buses. -/
def resolvedState (comps : List Component) (wires : List Wire) (grounds : List String) :
    List (String × Nat) × Nat × List String :=
  preScan comps ((build_node_map wires grounds).1, (build_node_map wires grounds).2, [])

-- Serializer: rendering --------------------------------------------------------

/-- Python's `f"{n:04d}"`: decimal with at least four digits, zero padded. -/
def pad4 (n : Nat) : String :=
  String.mk (List.replicate (4 - (toString n).length) '0') ++ toString n

/-- The fixed component-type-to-prefix table (`id_to_suffix` plus the `"U"`
fallback of `dict.get`). -/
def id_to_suffix (cid : Int) : String :=
  if cid = -1 then "V"
  else if cid = 0 then "wire"
  else if cid = 1 then "R"
  else if cid = 2 then "C"
  else if cid = 3 then "I"
  else if cid = 4 then "MOST"
  else if cid = 5 then "CIRT"
  else if cid = 6 then "LED"
  else if cid = 7 then "IC"
  else "U"

/-- Display-name construction for one component: `counts[comp_id] += 1;
idx = counts[comp_id]` for nonnegative tags (out-of-range indexing is the
`none` case, modelling Python's `IndexError`), fixed index 1 otherwise. -/
def compName (counts : List Nat) (cid : Int) : Option (String × List Nat) :=
  if 0 ≤ cid then
    match counts.get? cid.toNat with
    | none => none
    | some v => some (id_to_suffix cid ++ toString (v + 1), counts.set cid.toNat (v + 1))
  else some (id_to_suffix cid ++ toString 1, counts)

/-- Rendering of one terminal: ground renders `" 0"`, a flagged bus renders a
dense output-local node token `" N%04d"` allocated in order of first
appearance, an unflagged bus renders `" NC"`.  A bus absent from the
mapping is a `KeyError`, modelled as `none`. -/
def footToken (m : List (String × Nat)) (flags : List String) (remap : List (Nat × Nat))
    (newnode : Nat) (node : String) : Option (String × List (Nat × Nat) × Nat) :=
  match findVal m node with
  | none => none
  | some mappedId =>
    if mappedId = 0 then some (" 0", remap, newnode)
    else if node ∈ flags then
      match findNat remap mappedId with
      | some fin => some (" N" ++ pad4 fin, remap, newnode)
      | none => some (" N" ++ pad4 newnode, remap ++ [(mappedId, newnode)], newnode + 1)
    else some (" NC", remap, newnode)

/-- Rendering of a component's terminal list, appending each token to the line. -/
def renderFeet (m : List (String × Nat)) (flags : List String) (feet : List String)
    (line : String) (remap : List (Nat × Nat)) (newnode : Nat) :
    Option (String × List (Nat × Nat) × Nat) :=
  match feet with
  | [] => some (line, remap, newnode)
  | f :: rest =>
    match footToken m flags remap newnode (hole_to_node f) with
    | none => none
    | some (tok, remap2, nn2) => renderFeet m flags rest (line ++ tok) remap2 nn2

/-- Serializer state threaded through the component walk. -/
structure RState where
  remap : List (Nat × Nat)
  newnode : Nat
  counts : List Nat
  result : String
deriving DecidableEq

/-- Rendering of one component line: display name, terminal tokens, then the
verbatim spec text and a newline, appended to the accumulated result. -/
def renderComp (m : List (String × Nat)) (flags : List String) (st : RState)
    (c : Component) : Option RState :=
  match compName st.counts c.cid with
  | none => none
  | some (nm, counts2) =>
    match renderFeet m flags c.feet nm st.remap st.newnode with
    | none => none
    | some (line, remap2, nn2) =>
      some ⟨remap2, nn2, counts2, st.result ++ (line ++ " " ++ c.spec ++ "\n")⟩

/-- The component walk of the serializer. -/
def renderAll (m : List (String × Nat)) (flags : List String) (comps : List Component)
    (st : RState) : Option RState :=
  match comps with
  | [] => some st
  | c :: rest =>
    match renderComp m flags st c with
    | none => none
    | some st2 => renderAll m flags rest st2

/-- Embedding of `generate_spice_netlist`: resolve connectivity, pre-scan
component terminals, render every component line, and append the fixed
trailer.  `none` models a raised exception. -/
def generate_spice_netlist (components : List Component) (wires : List Wire)
    (grounds : List String) : Option String :=
  match renderAll (resolvedState components wires grounds).1
      (resolvedState components wires grounds).2.2 components ⟨[], 1, List.replicate 8 0, ""⟩ with
  | none => none
  | some st => some (st.result ++ ".backanno\n.end\n")

-- Basic dictionary lemmas ------------------------------------------------------

lemma findVal_setKey_self (m : List (String × Nat)) (k : String) (v : Nat) :
    findVal (setKey m k v) k = some v := by
  induction m with
  | nil => simp [setKey, findVal]
  | cons kv rest ih =>
    by_cases hk : kv.1 = k
    · simp [setKey, hk, findVal]
    · simp [setKey, hk, findVal, ih]

lemma findVal_setKey_ne (m : List (String × Nat)) (k k' : String) (v : Nat)
    (h : k' ≠ k) : findVal (setKey m k v) k' = findVal m k' := by
  have h2 : ¬(k = k') := fun e => h e.symm
  induction m with
  | nil => simp [setKey, findVal, h2]
  | cons kv rest ih =>
    by_cases hk : kv.1 = k
    · simp [setKey, hk, findVal, h2]
    · simp [setKey, hk, findVal, ih]

lemma findVal_map_rewrite (m : List (String × Nat)) (old t : Nat) (k : String) :
    findVal (m.map (fun kv => if kv.2 = old then (kv.1, t) else kv)) k =
      (findVal m k).map (fun v => if v = old then t else v) := by
  induction m with
  | nil => simp [findVal]
  | cons kv rest ih =>
    by_cases hk : kv.1 = k
    · by_cases hv : kv.2 = old <;> simp [findVal, hk, hv]
    · by_cases hv : kv.2 = old <;> simp [findVal, hk, hv, ih]

lemma findVal_append_single (m : List (String × Nat)) (k k' : String) (v : Nat) :
    findVal (m ++ [(k, v)]) k' = if (findVal m k').isSome then findVal m k'
      else if k = k' then some v else none := by
  induction m with
  | nil => simp [findVal]
  | cons kv rest ih =>
    by_cases hk : kv.1 = k'
    · simp [findVal, hk]
    · simp [findVal, hk, ih]

-- Value-preservation machinery for the resolver --------------------------------

/-- One resolver step acts on already-present values by a single function that
fixes 0: this is the sense in which a step never loses a bus, never changes
ground, and keeps equal ids equal. -/
def MapExtends (m m' : List (String × Nat)) : Prop :=
  ∃ g : Nat → Nat, g 0 = 0 ∧ ∀ a x, findVal m a = some x → findVal m' a = some (g x)

lemma mapExtends_refl (m : List (String × Nat)) : MapExtends m m :=
  ⟨id, rfl, fun _ _ h => h⟩

lemma mapExtends_trans {m1 m2 m3 : List (String × Nat)}
    (h12 : MapExtends m1 m2) (h23 : MapExtends m2 m3) : MapExtends m1 m3 := by
  obtain ⟨g1, hg1, hf1⟩ := h12
  obtain ⟨g2, hg2, hf2⟩ := h23
  exact ⟨g2 ∘ g1, by simp [hg1, hg2], fun a x h => hf2 a (g1 x) (hf1 a x h)⟩

lemma max_ne_zero_of_ne {v1 v2 : Nat} (h : v1 ≠ v2) : max v1 v2 ≠ 0 := by
  intro hmax
  rcases Nat.max_eq_zero_iff.mp hmax with ⟨e1, e2⟩
  exact h (e1.trans e2.symm)

lemma processWire_extends (m : List (String × Nat)) (c : Nat) (w : Wire) :
    MapExtends m (processWire (m, c) w).1 := by
  unfold processWire
  rcases h1 : findVal m (hole_to_node w.foot1) with _ | v1 <;>
    rcases h2 : findVal m (hole_to_node w.foot2) with _ | v2
  · refine ⟨id, rfl, fun a x hx => ?_⟩
    have ha1 : a ≠ hole_to_node w.foot1 := fun e => by rw [e, h1] at hx; exact Option.noConfusion hx
    have ha2 : a ≠ hole_to_node w.foot2 := fun e => by rw [e, h2] at hx; exact Option.noConfusion hx
    simp [h1, h2, findVal_setKey_ne _ _ _ _ ha2, findVal_setKey_ne _ _ _ _ ha1, hx]
  · refine ⟨id, rfl, fun a x hx => ?_⟩
    have ha1 : a ≠ hole_to_node w.foot1 := fun e => by rw [e, h1] at hx; exact Option.noConfusion hx
    simp [h1, h2, findVal_setKey_ne _ _ _ _ ha1, hx]
  · refine ⟨id, rfl, fun a x hx => ?_⟩
    have ha2 : a ≠ hole_to_node w.foot2 := fun e => by rw [e, h2] at hx; exact Option.noConfusion hx
    simp [h1, h2, findVal_setKey_ne _ _ _ _ ha2, hx]
  · by_cases hne : v1 ≠ v2
    · refine ⟨fun v => if v = max v1 v2 then min v1 v2 else v, ?_, fun a x hx => ?_⟩
      · simp [(max_ne_zero_of_ne hne).symm, Ne.symm (max_ne_zero_of_ne hne)]
      · simp [h1, h2, hne, findVal_map_rewrite, hx]
    · exact ⟨id, rfl, fun a x hx => by simpa [h1, h2, hne] using hx⟩

lemma foldl_processWire_extends (ws : List Wire) (mc : List (String × Nat) × Nat) :
    MapExtends mc.1 (List.foldl processWire mc ws).1 := by
  induction ws generalizing mc with
  | nil => exact mapExtends_refl _
  | cons w rest ih =>
    exact mapExtends_trans (processWire_extends mc.1 mc.2 w) (ih (processWire mc w))

lemma onePass_extends (ws : List Wire) (mc : List (String × Nat) × Nat) :
    MapExtends mc.1 (onePass ws mc).1 :=
  foldl_processWire_extends ws mc

lemma iterate_onePass_extends (ws : List Wire) (n : Nat) (mc : List (String × Nat) × Nat) :
    MapExtends mc.1 ((onePass ws)^[n] mc).1 := by
  induction n generalizing mc with
  | zero => exact mapExtends_refl _
  | succ k ih =>
    rw [Function.iterate_succ_apply]
    exact mapExtends_trans (onePass_extends ws mc) (ih (onePass ws mc))

-- Endpoints of a processed wire are equalized and stay equalized ----------------

/-- Immediately after its own processing step, the two canonical endpoints of a
wire are mapped to one common id. -/
lemma processWire_equalizes (m : List (String × Nat)) (c : Nat) (w : Wire) :
    ∃ y, findVal (processWire (m, c) w).1 (hole_to_node w.foot1) = some y ∧
      findVal (processWire (m, c) w).1 (hole_to_node w.foot2) = some y := by
  unfold processWire
  rcases h1 : findVal m (hole_to_node w.foot1) with _ | v1 <;>
    rcases h2 : findVal m (hole_to_node w.foot2) with _ | v2
  · refine ⟨c, ?_, ?_⟩
    · by_cases he : hole_to_node w.foot1 = hole_to_node w.foot2
      · simp [h1, h2, he, findVal_setKey_self]
      · simp [h1, h2, findVal_setKey_ne _ _ _ _ he, findVal_setKey_self]
    · simp [h1, h2, findVal_setKey_self]
  · have he : hole_to_node w.foot1 ≠ hole_to_node w.foot2 := by
      intro e; rw [e, h2] at h1; exact Option.noConfusion h1
    exact ⟨v2, by simp [h1, h2, findVal_setKey_self], by
      simp [h1, h2, findVal_setKey_ne _ _ _ _ (fun e => he e.symm), h2]⟩
  · have he : hole_to_node w.foot2 ≠ hole_to_node w.foot1 := by
      intro e; rw [e, h1] at h2; exact Option.noConfusion h2
    exact ⟨v1, by simp [h1, h2, findVal_setKey_ne _ _ _ _ (fun e => he e.symm), h1], by
      simp [h1, h2, findVal_setKey_self]⟩
  · by_cases hne : v1 ≠ v2
    · refine ⟨min v1 v2, ?_, ?_⟩
      · rcases Nat.le_total v1 v2 with hle | hle <;>
          simp [h1, h2, hne, findVal_map_rewrite, Nat.max_eq_right, Nat.max_eq_left,
            Nat.min_eq_left, Nat.min_eq_right, hle]
      · rcases Nat.le_total v1 v2 with hle | hle <;>
          simp [h1, h2, hne, findVal_map_rewrite, Nat.max_eq_right, Nat.max_eq_left,
            Nat.min_eq_left, Nat.min_eq_right, hle]
    · push_neg at hne
      exact ⟨v1, by simp [h1, h2, hne], by simp [h1, h2, hne]⟩

/-- Equal present values remain equal (and present) across a map extension. -/
lemma mapExtends_preserves_eq {m m' : List (String × Nat)} (h : MapExtends m m')
    {a b : String} {y : Nat} (ha : findVal m a = some y) (hb : findVal m b = some y) :
    ∃ z, findVal m' a = some z ∧ findVal m' b = some z := by
  obtain ⟨g, _, hf⟩ := h
  exact ⟨g y, hf a y ha, hf b y hb⟩

/-- After one full pass over the wire list, every wire of the list has both
canonical endpoints mapped to one common id. -/
lemma onePass_equalizes (ws : List Wire) (mc : List (String × Nat) × Nat) :
    ∀ w ∈ ws, ∃ y, findVal (onePass ws mc).1 (hole_to_node w.foot1) = some y ∧
      findVal (onePass ws mc).1 (hole_to_node w.foot2) = some y := by
  induction ws generalizing mc with
  | nil => intro w hw; exact absurd hw (List.not_mem_nil w)
  | cons w0 rest ih =>
    intro w hw
    rcases List.mem_cons.mp hw with he | hr
    · subst he
      obtain ⟨y, hy1, hy2⟩ := processWire_equalizes mc.1 mc.2 w
      have hpw : processWire (mc.1, mc.2) w = processWire mc w := by rfl
      rw [hpw] at hy1 hy2
      have hext : MapExtends (processWire mc w).1 (onePass rest (processWire mc w)).1 :=
        foldl_processWire_extends rest (processWire mc w)
      obtain ⟨z, hz1, hz2⟩ := mapExtends_preserves_eq hext hy1 hy2
      exact ⟨z, by simpa [onePass, List.foldl_cons] using hz1,
        by simpa [onePass, List.foldl_cons] using hz2⟩
    · obtain ⟨y, hy1, hy2⟩ := ih (processWire mc w0) w hr
      exact ⟨y, by simpa [onePass, List.foldl_cons] using hy1,
        by simpa [onePass, List.foldl_cons] using hy2⟩

/-- In the final mapping returned by `build_node_map`, every wire has both
canonical endpoints mapped to one common id. -/
lemma build_node_map_equalizes (wires : List Wire) (grounds : List String) :
    ∀ w ∈ wires, ∃ y,
      findVal (build_node_map wires grounds).1 (hole_to_node w.foot1) = some y ∧
      findVal (build_node_map wires grounds).1 (hole_to_node w.foot2) = some y := by
  intro w hw
  unfold build_node_map
  rw [Function.iterate_succ_apply]
  obtain ⟨y, hy1, hy2⟩ := onePass_equalizes wires (initGrounds grounds, 1) w hw
  exact mapExtends_preserves_eq
    (iterate_onePass_extends wires wires.length (onePass wires (initGrounds grounds, 1))) hy1 hy2

-- Fixed point of the pass loop --------------------------------------------------

/-- Processing a wire whose endpoints already share an id is a no-op. -/
lemma processWire_noop (m : List (String × Nat)) (c : Nat) (w : Wire) (y : Nat)
    (h1 : findVal m (hole_to_node w.foot1) = some y)
    (h2 : findVal m (hole_to_node w.foot2) = some y) :
    processWire (m, c) w = (m, c) := by
  unfold processWire
  simp [h1, h2]

/-- A full pass over wires whose endpoints are all already equalized changes
nothing. -/
lemma onePass_noop (ws : List Wire) (mc : List (String × Nat) × Nat)
    (h : ∀ w ∈ ws, ∃ y, findVal mc.1 (hole_to_node w.foot1) = some y ∧
      findVal mc.1 (hole_to_node w.foot2) = some y) :
    onePass ws mc = mc := by
  induction ws with
  | nil => rfl
  | cons w0 rest ih =>
    obtain ⟨y, hy1, hy2⟩ := h w0 (List.mem_cons_self w0 rest)
    have hstep : processWire mc w0 = mc := by
      have := processWire_noop mc.1 mc.2 w0 y hy1 hy2
      simpa using this
    show List.foldl processWire mc (w0 :: rest) = mc
    rw [List.foldl_cons, hstep]
    exact ih (fun w hw => h w (List.mem_cons_of_mem w0 hw))

-- Connectivity relation ---------------------------------------------------------

/-- Two canonical buses are connected when they are joined by a chain of wire
endpoints or shared ground declarations. -/
inductive Connected (wires : List Wire) (grounds : List String) : String → String → Prop
  | wireEdge (w : Wire) (hw : w ∈ wires) :
      Connected wires grounds (hole_to_node w.foot1) (hole_to_node w.foot2)
  | groundEdge (g1 g2 : String) (h1 : g1 ∈ grounds) (h2 : g2 ∈ grounds) :
      Connected wires grounds (hole_to_node g1) (hole_to_node g2)
  | symm (a b : String) (h : Connected wires grounds a b) : Connected wires grounds b a
  | trans (a b c : String) (hab : Connected wires grounds a b)
      (hbc : Connected wires grounds b c) : Connected wires grounds a c

-- Ground invariants --------------------------------------------------------------

/-- Writing 0 at any key preserves every entry that is already 0. -/
lemma setKey_zero_preserves (m : List (String × Nat)) (k a : String)
    (h : findVal m a = some 0) : findVal (setKey m k 0) a = some 0 := by
  by_cases he : a = k
  · subst he; simp [findVal_setKey_self]
  · rw [findVal_setKey_ne _ _ _ _ he]; exact h

lemma initGrounds_aux_preserves (gs : List String) (m : List (String × Nat)) (a : String)
    (h : findVal m a = some 0) :
    findVal (gs.foldl (fun m2 g => setKey m2 (hole_to_node g) 0) m) a = some 0 := by
  induction gs generalizing m with
  | nil => exact h
  | cons g rest ih =>
    simp only [List.foldl_cons]
    exact ih _ (setKey_zero_preserves m (hole_to_node g) a h)

lemma initGrounds_aux_zero (gs : List String) (m : List (String × Nat)) (g : String)
    (hg : g ∈ gs) :
    findVal (gs.foldl (fun m2 g2 => setKey m2 (hole_to_node g2) 0) m) (hole_to_node g) =
      some 0 := by
  induction gs generalizing m with
  | nil => exact absurd hg (List.not_mem_nil g)
  | cons g0 rest ih =>
    rcases List.mem_cons.mp hg with he | hr
    · subst he
      simp only [List.foldl_cons]
      exact initGrounds_aux_preserves rest _ _ (by simp [findVal_setKey_self])
    · simp only [List.foldl_cons]
      exact ih _ hr

/-- Ground initialization maps every ground hole's canonical bus to 0. -/
lemma initGrounds_zero (grounds : List String) (g : String) (hg : g ∈ grounds) :
    findVal (initGrounds grounds) (hole_to_node g) = some 0 :=
  initGrounds_aux_zero grounds [] g hg

/-- The final resolver mapping assigns 0 to every ground hole's canonical bus. -/
lemma build_node_map_ground_zero (wires : List Wire) (grounds : List String) (g : String)
    (hg : g ∈ grounds) :
    findVal (build_node_map wires grounds).1 (hole_to_node g) = some 0 := by
  obtain ⟨gf, hg0, hf⟩ :=
    iterate_onePass_extends wires (wires.length + 1) (initGrounds grounds, 1)
  have := hf (hole_to_node g) 0 (initGrounds_zero grounds g hg)
  rw [hg0] at this
  exact this

-- Main resolver correctness -------------------------------------------------------

/-- Any two connected buses receive the identical id in the final resolver
mapping. -/
lemma connected_findVal_eq (wires : List Wire) (grounds : List String) (b1 b2 : String)
    (h : Connected wires grounds b1 b2) :
    findVal (build_node_map wires grounds).1 b1 =
      findVal (build_node_map wires grounds).1 b2 := by
  induction h with
  | wireEdge w hw =>
    obtain ⟨y, hy1, hy2⟩ := build_node_map_equalizes wires grounds w hw
    rw [hy1, hy2]
  | groundEdge g1 g2 h1 h2 =>
    rw [build_node_map_ground_zero wires grounds g1 h1,
      build_node_map_ground_zero wires grounds g2 h2]
  | symm a b _ ih => exact ih.symm
  | trans a b c _ _ ih1 ih2 => exact ih1.trans ih2

/-- The state returned by `build_node_map` is unchanged by one more full pass
over the wires. -/
lemma build_node_map_fixed (wires : List Wire) (grounds : List String) :
    onePass wires (build_node_map wires grounds) = build_node_map wires grounds :=
  onePass_noop wires (build_node_map wires grounds) (build_node_map_equalizes wires grounds)

/-- C2: for every wire list and ground list, the mapping returned by
`build_node_map` (which runs `len(wires) + 1` full passes) is a fixed point
of a further full pass, and any two buses connected directly or transitively
through any chain of wire endpoints or shared ground holes are mapped to the
identical NodeID; the statement quantifies over every wire list, hence over
every ordering of the wires. -/
theorem build_node_map_fixed_point_connected (wires : List Wire) (grounds : List String) :
    onePass wires (build_node_map wires grounds) = build_node_map wires grounds ∧
    ∀ b1 b2 : String, Connected wires grounds b1 b2 →
      findVal (build_node_map wires grounds).1 b1 =
        findVal (build_node_map wires grounds).1 b2 :=
  ⟨build_node_map_fixed wires grounds,
    fun b1 b2 h => connected_findVal_eq wires grounds b1 b2 h⟩

/-- Witness for C2: a two-wire chain `B1 -- G3` and `F3 -- U+` transitively
identifies the buses `A1` and `U+` in the returned mapping (both carry id 1). -/
theorem build_node_map_fixed_point_connected_witness :
    findVal (build_node_map [⟨0, "w1", "B1", "G3"⟩, ⟨1, "w2", "F3", "U+"⟩] []).1 "A1" =
      findVal (build_node_map [⟨0, "w1", "B1", "G3"⟩, ⟨1, "w2", "F3", "U+"⟩] []).1 "U+" := by
  have hchain : Connected [⟨0, "w1", "B1", "G3"⟩, ⟨1, "w2", "F3", "U+"⟩] [] "A1" "U+" := by
    have e1 : hole_to_node (Wire.foot1 ⟨0, "w1", "B1", "G3"⟩) = "A1" := by decide
    have e2 : hole_to_node (Wire.foot2 ⟨0, "w1", "B1", "G3"⟩) = "F3" := by decide
    have e3 : hole_to_node (Wire.foot1 ⟨1, "w2", "F3", "U+"⟩) = "F3" := by decide
    have e4 : hole_to_node (Wire.foot2 ⟨1, "w2", "F3", "U+"⟩) = "U+" := by decide
    refine Connected.trans _ "F3" _ ?_ ?_
    · have h := @Connected.wireEdge [⟨0, "w1", "B1", "G3"⟩, ⟨1, "w2", "F3", "U+"⟩]
        [] ⟨0, "w1", "B1", "G3"⟩ (by simp)
      rwa [e1, e2] at h
    · have h := @Connected.wireEdge [⟨0, "w1", "B1", "G3"⟩, ⟨1, "w2", "F3", "U+"⟩]
        [] ⟨1, "w2", "F3", "U+"⟩ (by simp)
      rwa [e3, e4] at h
  exact (build_node_map_fixed_point_connected
    [⟨0, "w1", "B1", "G3"⟩, ⟨1, "w2", "F3", "U+"⟩] []).2 "A1" "U+" hchain

-- Pre-scan preserves resolver values ---------------------------------------------

/-- The pre-scan step never changes the value of a bus already in the mapping. -/
lemma scanFoot_preserves (st : List (String × Nat) × Nat × List String) (f a : String)
    (x : Nat) (h : findVal st.1 a = some x) : findVal (scanFoot st f).1 a = some x := by
  unfold scanFoot
  by_cases hp : (findVal st.1 (hole_to_node f)).isSome
  · simpa [hp] using h
  · have ha : a ≠ hole_to_node f := by
      intro e
      rw [← e, h] at hp
      exact hp rfl
    rw [if_neg hp]
    show findVal (setKey st.1 (hole_to_node f) st.2.1) a = some x
    rw [findVal_setKey_ne _ _ _ _ ha]
    exact h

lemma foldl_scanFoot_preserves (feet : List String)
    (st : List (String × Nat) × Nat × List String) (a : String) (x : Nat)
    (h : findVal st.1 a = some x) : findVal (feet.foldl scanFoot st).1 a = some x := by
  induction feet generalizing st with
  | nil => exact h
  | cons f rest ih =>
    simp only [List.foldl_cons]
    exact ih (scanFoot st f) (scanFoot_preserves st f a x h)

/-- The full pre-scan never changes the value of a bus already in the mapping. -/
lemma preScan_preserves (comps : List Component)
    (st : List (String × Nat) × Nat × List String) (a : String) (x : Nat)
    (h : findVal st.1 a = some x) : findVal (preScan comps st).1 a = some x := by
  induction comps generalizing st with
  | nil => exact h
  | cons c rest ih =>
    simp only [preScan, List.foldl_cons]
    exact ih (c.feet.foldl scanFoot st) (foldl_scanFoot_preserves c.feet st a x h)

/-- C3: every ground hole's canonical bus is assigned NodeID 0 by
`build_node_map`; a single resolver step never moves any bus off id 0 (the
min-wins merge always lets 0 survive); and every bus reachable directly or
transitively from a grounded hole still carries id 0 in the serializer's
mapping and renders as the literal ground token in every component-line
position that references it. -/
theorem ground_dominance (wires : List Wire) (grounds : List String)
    (comps : List Component) (g b : String) (hg : g ∈ grounds)
    (hb : b = hole_to_node g ∨ Connected wires grounds b (hole_to_node g)) :
    findVal (build_node_map wires grounds).1 (hole_to_node g) = some 0 ∧
    (∀ (m : List (String × Nat)) (c : Nat) (w : Wire) (a : String),
      findVal m a = some 0 → findVal (processWire (m, c) w).1 a = some 0) ∧
    findVal (resolvedState comps wires grounds).1 b = some 0 ∧
    (∀ (remap : List (Nat × Nat)) (newnode : Nat),
      footToken (resolvedState comps wires grounds).1
        (resolvedState comps wires grounds).2.2 remap newnode b =
          some (" 0", remap, newnode)) := by
  have hzero : findVal (build_node_map wires grounds).1 b = some 0 := by
    rcases hb with he | hc
    · rw [he]; exact build_node_map_ground_zero wires grounds g hg
    · rw [connected_findVal_eq wires grounds b (hole_to_node g) hc]
      exact build_node_map_ground_zero wires grounds g hg
  have hres : findVal (resolvedState comps wires grounds).1 b = some 0 :=
    preScan_preserves comps _ b 0 hzero
  refine ⟨build_node_map_ground_zero wires grounds g hg, ?_, hres, ?_⟩
  · intro m c w a h
    obtain ⟨gf, hg0, hf⟩ := processWire_extends m c w
    have := hf a 0 h
    rwa [hg0] at this
  · intro remap newnode
    simp [footToken, hres]

/-- Witness for C3: with ground `B7` and wire `A3 -- C7`, the bus `A3`
(reached transitively from the grounded bus `A7`) carries id 0 in the
serializer state for a resistor referencing it, and renders as `" 0"`. -/
theorem ground_dominance_witness :
    findVal (resolvedState [⟨1, "R", ["E3", "F1"], "1k"⟩]
      [⟨0, "w", "A3", "C7"⟩] ["B7"]).1 "A3" = some 0 ∧
    footToken (resolvedState [⟨1, "R", ["E3", "F1"], "1k"⟩]
        [⟨0, "w", "A3", "C7"⟩] ["B7"]).1
      (resolvedState [⟨1, "R", ["E3", "F1"], "1k"⟩]
        [⟨0, "w", "A3", "C7"⟩] ["B7"]).2.2 [] 1 "A3" = some (" 0", [], 1) := by
  have hchain : Connected [⟨0, "w", "A3", "C7"⟩] ["B7"] "A3" (hole_to_node "B7") := by
    have e1 : hole_to_node (Wire.foot1 ⟨(0 : Int), "w", "A3", "C7"⟩) = "A3" := by decide
    have e2 : hole_to_node (Wire.foot2 ⟨(0 : Int), "w", "A3", "C7"⟩) = "A7" := by decide
    have e3 : hole_to_node "B7" = "A7" := by decide
    rw [e3]
    have h := @Connected.wireEdge [⟨0, "w", "A3", "C7"⟩] ["B7"]
      ⟨0, "w", "A3", "C7"⟩ (by simp)
    rwa [e1, e2] at h
  have h := ground_dominance [⟨0, "w", "A3", "C7"⟩] ["B7"] [⟨1, "R", ["E3", "F1"], "1k"⟩]
    "B7" "A3" (by simp) (Or.inr hchain)
  exact ⟨h.2.2.1, h.2.2.2 [] 1⟩

-- Concrete end-to-end scenarios ---------------------------------------------------

/-- C6: one resistor (type tag 1) with terminals at grounded hole `A1` and
otherwise-untouched hole `F1`, value `10k`, zero wires, one ground at `A1`,
serializes to exactly `R1 0 NC 10k\n.backanno\n.end\n`. -/
theorem netlist_single_resistor_ground_nc :
    generate_spice_netlist [⟨1, "R1", ["A1", "F1"], "10k"⟩] [] ["A1"] =
      some "R1 0 NC 10k\n.backanno\n.end\n" := by
  decide

/-- C4 failing input: a component with the nonnegative unknown type tag 8
makes serialization fault (Python raises `IndexError` on the length-8
per-type counter array; the embedding returns `none`) instead of rendering
a `U`-prefixed line. -/
theorem netlist_unknown_tag_faults :
    generate_spice_netlist [⟨8, "X", ["A1", "A2"], "x"⟩] [] [] = none := by
  decide

/-- C1 counterexample: the bus `A1` is absent from the resolver's mapping
(no wires, no grounds) and is introduced only by the two terminals of one
resistor (`A1` and `B1` canonicalize to the same bus), yet the second
terminal flags it, so it receives the rendered node token `N0001` instead of
the claimed `NC`. -/
theorem shared_dangling_bus_gets_flagged :
    (build_node_map [] []).1 = [] ∧
    "A1" ∈ (resolvedState [⟨1, "R", ["A1", "B1"], "1k"⟩] [] []).2.2 ∧
    generate_spice_netlist [⟨1, "R", ["A1", "B1"], "1k"⟩] [] [] =
      some "R1 N0001 N0001 1k\n.backanno\n.end\n" ∧
    generate_spice_netlist [⟨1, "R", ["A1", "B1"], "1k"⟩] [] [] ≠
      some "R1 NC NC 1k\n.backanno\n.end\n" := by
  refine ⟨by decide, by decide, by decide, by decide⟩

/-- C5 counterexample: two resistors sharing one terminal via the single wire
`A2 -- A3` with no grounds.  The claim requires the non-shared terminals to
receive distinct dense node tokens (so the output would read
`R1 N0001 N0002 10k\nR2 N0002 N0003 20k\n...`), but the code renders the
non-shared terminals as `NC` and only the shared side gets a node token. -/
theorem two_resistor_scenario_nonshared_nc :
    generate_spice_netlist
        [⟨1, "Ra", ["A1", "A2"], "10k"⟩, ⟨1, "Rb", ["A3", "A4"], "20k"⟩]
        [⟨0, "w", "A2", "A3"⟩] [] =
      some "R1 NC N0001 10k\nR2 N0001 NC 20k\n.backanno\n.end\n" ∧
    generate_spice_netlist
        [⟨1, "Ra", ["A1", "A2"], "10k"⟩, ⟨1, "Rb", ["A3", "A4"], "20k"⟩]
        [⟨0, "w", "A2", "A3"⟩] [] ≠
      some "R1 N0001 N0002 10k\nR2 N0002 N0003 20k\n.backanno\n.end\n" := by
  refine ⟨by decide, by decide⟩

/-- C5 amended: in the two-resistor scenario the two rendered lines reference
the identical node token `N0001` for the shared (wire-touched) side, while
the two non-shared terminals, whose buses are touched by no wire or ground
and occur only once, render as the no-connection token `NC`. -/
theorem two_resistor_scenario_shared_token :
    generate_spice_netlist
        [⟨1, "Ra", ["A1", "A2"], "10k"⟩, ⟨1, "Rb", ["A3", "A4"], "20k"⟩]
        [⟨0, "w", "A2", "A3"⟩] [] =
      some "R1 NC N0001 10k\nR2 N0001 NC 20k\n.backanno\n.end\n" := by
  decide

-- Single-occurrence dangling terminals -------------------------------------------

/-- Number of terminals in a foot list whose canonical bus is `b`. -/
def occCount (b : String) : List String → Nat
  | [] => 0
  | f :: rest => (if hole_to_node f = b then 1 else 0) + occCount b rest

lemma mem_addFlag (flags : List String) (n a : String) :
    a ∈ addFlag flags n ↔ a ∈ flags ∨ a = n := by
  unfold addFlag
  split
  · next h => exact ⟨Or.inl, fun h2 => h2.elim id (fun e => e ▸ h)⟩
  · simp

lemma processWire_counter_ge (mc : List (String × Nat) × Nat) (w : Wire) :
    mc.2 ≤ (processWire mc w).2 := by
  unfold processWire
  rcases h1 : findVal mc.1 (hole_to_node w.foot1) with _ | v1 <;>
    rcases h2 : findVal mc.1 (hole_to_node w.foot2) with _ | v2 <;>
    simp [h1, h2]
  split <;> simp

lemma foldl_processWire_counter_ge (ws : List Wire) (mc : List (String × Nat) × Nat) :
    mc.2 ≤ (List.foldl processWire mc ws).2 := by
  induction ws generalizing mc with
  | nil => exact le_refl _
  | cons w rest ih =>
    exact le_trans (processWire_counter_ge mc w) (ih (processWire mc w))

lemma build_node_map_counter_ge (wires : List Wire) (grounds : List String) :
    1 ≤ (build_node_map wires grounds).2 := by
  unfold build_node_map
  generalize hn : wires.length + 1 = n
  clear hn
  induction n with
  | zero => exact le_refl 1
  | succ k ih =>
    rw [Function.iterate_succ_apply']
    exact le_trans ih (foldl_processWire_counter_ge wires _)

/-- The nested pre-scan loops are a single fold over the flattened terminal
list. -/
lemma preScan_eq_foldl (comps : List Component)
    (st : List (String × Nat) × Nat × List String) :
    preScan comps st = (comps.flatMap Component.feet).foldl scanFoot st := by
  induction comps generalizing st with
  | nil => rfl
  | cons c rest ih =>
    simp only [preScan, List.foldl_cons, List.flatMap_cons, List.foldl_append]
    exact ih _

/-- Core invariant for a bus that the wires and grounds never touch and that at
most one remaining terminal canonicalizes to: it never becomes flagged, and if
it is in the mapping at all its id is a positive provisional one. -/
lemma foldl_scanFoot_single (feet : List String) (b : String)
    (st : List (String × Nat) × Nat × List String)
    (hcnt : 1 ≤ st.2.1) (hfl : b ∉ st.2.2)
    (hst : (findVal st.1 b = none ∧ occCount b feet ≤ 1) ∨
      (∃ x, findVal st.1 b = some x ∧ 1 ≤ x ∧ occCount b feet = 0)) :
    b ∉ (feet.foldl scanFoot st).2.2 ∧
      (findVal (feet.foldl scanFoot st).1 b = none ∨
        ∃ x, findVal (feet.foldl scanFoot st).1 b = some x ∧ 1 ≤ x) := by
  induction feet generalizing st with
  | nil =>
    refine ⟨hfl, ?_⟩
    rcases hst with ⟨hn, _⟩ | ⟨x, hx, h1, _⟩
    · exact Or.inl hn
    · exact Or.inr ⟨x, hx, h1⟩
  | cons f rest ih =>
    rw [List.foldl_cons]
    have hoccc : occCount b (f :: rest) =
        (if hole_to_node f = b then 1 else 0) + occCount b rest := rfl
    by_cases hfb : hole_to_node f = b
    · rcases hst with ⟨hn, hocc⟩ | ⟨x, hx, h1, hocc⟩
      · have hocc0 : occCount b rest = 0 := by
          rw [hoccc, if_pos hfb] at hocc
          omega
        have hstep : scanFoot st f =
            (setKey st.1 (hole_to_node f) st.2.1, st.2.1 + 1, st.2.2) := by
          unfold scanFoot
          rw [hfb, hn]
          simp
        refine ih (scanFoot st f) ?_ ?_ ?_
        · rw [hstep]
          show 1 ≤ st.2.1 + 1
          omega
        · rw [hstep]; exact hfl
        · refine Or.inr ⟨st.2.1, ?_, hcnt, hocc0⟩
          rw [hstep]
          show findVal (setKey st.1 (hole_to_node f) st.2.1) b = some st.2.1
          rw [hfb, findVal_setKey_self]
      · exfalso
        rw [hoccc, if_pos hfb] at hocc
        omega
    · have hval : findVal (scanFoot st f).1 b = findVal st.1 b := by
        unfold scanFoot
        split
        · rfl
        · show findVal (setKey st.1 (hole_to_node f) st.2.1) b = findVal st.1 b
          exact findVal_setKey_ne _ _ _ _ (fun e => hfb e.symm)
      have hflag : b ∉ (scanFoot st f).2.2 := by
        unfold scanFoot
        split
        · show b ∉ addFlag st.2.2 (hole_to_node f)
          rw [mem_addFlag]
          rintro (h | h)
          · exact hfl h
          · exact hfb h.symm
        · exact hfl
      have hcnt2 : 1 ≤ (scanFoot st f).2.1 := by
        unfold scanFoot
        split
        · exact hcnt
        · show 1 ≤ st.2.1 + 1
          omega
      refine ih (scanFoot st f) hcnt2 hflag ?_
      rcases hst with ⟨hn, hocc⟩ | ⟨x, hx, h1, hocc⟩
      · refine Or.inl ⟨hval.trans hn, ?_⟩
        rw [hoccc, if_neg hfb] at hocc
        omega
      · refine Or.inr ⟨x, hval.trans hx, h1, ?_⟩
        rw [hoccc, if_neg hfb] at hocc
        omega

/-- C1 amended: a component terminal whose canonical bus is not in the
resolver's mapping and is shared with no other component terminal (at most
one terminal occurrence over all components canonicalizes to it) never
becomes flagged by the pre-scan and renders as the no-connection token; a
bus shared by two or more terminals is flagged at its second occurrence and
receives a rendered node token instead. -/
theorem unshared_dangling_terminal_renders_nc (comps : List Component) (wires : List Wire)
    (grounds : List String) (b : String)
    (hb : findVal (build_node_map wires grounds).1 b = none)
    (hocc : occCount b (comps.flatMap Component.feet) ≤ 1) :
    b ∉ (resolvedState comps wires grounds).2.2 ∧
    (∀ x, findVal (resolvedState comps wires grounds).1 b = some x →
      ∀ (remap : List (Nat × Nat)) (newnode : Nat),
        footToken (resolvedState comps wires grounds).1
          (resolvedState comps wires grounds).2.2 remap newnode b =
            some (" NC", remap, newnode)) := by
  have hmain := foldl_scanFoot_single (comps.flatMap Component.feet) b
    ((build_node_map wires grounds).1, (build_node_map wires grounds).2, [])
    (build_node_map_counter_ge wires grounds) (by simp) (Or.inl ⟨hb, hocc⟩)
  rw [← preScan_eq_foldl] at hmain
  have hres : resolvedState comps wires grounds =
      preScan comps ((build_node_map wires grounds).1, (build_node_map wires grounds).2, []) :=
    rfl
  rw [← hres] at hmain
  refine ⟨hmain.1, fun x hx remap newnode => ?_⟩
  rcases hmain.2 with hn | ⟨y, hy, h1⟩
  · rw [hn] at hx; exact Option.noConfusion hx
  · have hxy : x = y := by
      rw [hx] at hy
      exact Option.some.inj hy
    have hx0 : x ≠ 0 := by omega
    simp [footToken, hx, hx0, hmain.1]

/-- Witness for C1 amended: the resistor between `A1` and `F1` with no wires
or grounds has both terminal buses occurring exactly once; the bus `A1` is
unflagged and renders `" NC"`. -/
theorem unshared_dangling_terminal_renders_nc_witness :
    "A1" ∉ (resolvedState [⟨1, "R", ["A1", "F1"], "1k"⟩] [] []).2.2 ∧
    footToken (resolvedState [⟨1, "R", ["A1", "F1"], "1k"⟩] [] []).1
      (resolvedState [⟨1, "R", ["A1", "F1"], "1k"⟩] [] []).2.2 [] 1 "A1" =
        some (" NC", [], 1) := by
  have h := unshared_dangling_terminal_renders_nc [⟨1, "R", ["A1", "F1"], "1k"⟩] [] []
    "A1" (by decide) (by decide)
  exact ⟨h.1, h.2 1 (by decide) [] 1⟩

-- Claim C7: canonicalization ------------------------------------------------------

/-- C7: `hole_to_node` is a deterministic total function of the label alone:
a label starting in `A`..`E` maps to `A` plus the rest, a label starting in
`F`..`J` maps to `F` plus the rest, any other nonempty label maps to its
first two characters verbatim, and the empty label maps to the empty-string
sentinel; hence two same-column labels in the same letter range share a bus
and the other range at that column gives a different bus. -/
theorem hole_to_node_total_canonicalization :
    (hole_to_node "" = "") ∧
    (∀ (c : Char) (rest : List Char), 'A' ≤ c → c < 'F' →
      hole_to_node (String.mk (c :: rest)) = String.mk ('A' :: rest)) ∧
    (∀ (c : Char) (rest : List Char), 'F' ≤ c → c < 'K' →
      hole_to_node (String.mk (c :: rest)) = String.mk ('F' :: rest)) ∧
    (∀ (c : Char) (rest : List Char), ¬('A' ≤ c ∧ c < 'F') → ¬('F' ≤ c ∧ c < 'K') →
      hole_to_node (String.mk (c :: rest)) = String.mk ((c :: rest).take 2)) ∧
    (∀ (c1 c2 : Char) (rest : List Char), 'A' ≤ c1 → c1 < 'F' → 'A' ≤ c2 → c2 < 'F' →
      hole_to_node (String.mk (c1 :: rest)) = hole_to_node (String.mk (c2 :: rest))) ∧
    (∀ (c1 c2 : Char) (rest : List Char), 'F' ≤ c1 → c1 < 'K' → 'F' ≤ c2 → c2 < 'K' →
      hole_to_node (String.mk (c1 :: rest)) = hole_to_node (String.mk (c2 :: rest))) ∧
    (∀ (c1 c2 : Char) (rest : List Char), 'A' ≤ c1 → c1 < 'F' → 'F' ≤ c2 → c2 < 'K' →
      hole_to_node (String.mk (c1 :: rest)) ≠ hole_to_node (String.mk (c2 :: rest))) := by
  have hAE : ∀ (c : Char) (rest : List Char), 'A' ≤ c → c < 'F' →
      hole_to_node (String.mk (c :: rest)) = String.mk ('A' :: rest) := by
    intro c rest h1 h2
    simp [hole_to_node, h1, h2]
  have hFJ : ∀ (c : Char) (rest : List Char), 'F' ≤ c → c < 'K' →
      hole_to_node (String.mk (c :: rest)) = String.mk ('F' :: rest) := by
    intro c rest h1 h2
    have hnA : ¬('A' ≤ c ∧ c < 'F') := fun hh => absurd h1 (not_le.mpr hh.2)
    simp [hole_to_node, hnA, h1, h2]
  refine ⟨rfl, hAE, hFJ, ?_, ?_, ?_, ?_⟩
  · intro c rest hn1 hn2
    simp [hole_to_node, hn1, hn2]
  · intro c1 c2 rest h1 h2 h3 h4
    rw [hAE c1 rest h1 h2, hAE c2 rest h3 h4]
  · intro c1 c2 rest h1 h2 h3 h4
    rw [hFJ c1 rest h1 h2, hFJ c2 rest h3 h4]
  · intro c1 c2 rest h1 h2 h3 h4
    rw [hAE c1 rest h1 h2, hFJ c2 rest h3 h4]
    intro he
    have : 'A' = 'F' := by
      have hd := congrArg String.data he
      simp at hd
    exact absurd this (by decide)

/-- Witness for C7: `C5` canonicalizes to `A5`, shares a bus with `A5`, and
differs from the second-range bus of `H5`. -/
theorem hole_to_node_total_canonicalization_witness :
    hole_to_node (String.mk ('C' :: ['5'])) = String.mk ('A' :: ['5']) ∧
    hole_to_node (String.mk ('C' :: ['5'])) = hole_to_node (String.mk ('A' :: ['5'])) ∧
    hole_to_node (String.mk ('C' :: ['5'])) ≠ hole_to_node (String.mk ('H' :: ['5'])) :=
  ⟨hole_to_node_total_canonicalization.2.1 'C' ['5'] (by decide) (by decide),
   hole_to_node_total_canonicalization.2.2.2.2.1 'C' 'A' ['5']
     (by decide) (by decide) (by decide) (by decide),
   hole_to_node_total_canonicalization.2.2.2.2.2.2 'C' 'H' ['5']
     (by decide) (by decide) (by decide) (by decide)⟩

-- Claim C8: the merge step ---------------------------------------------------------

/-- C8: when a wire joins two buses already mapped to distinct ids, the merge
step rewrites every bus carrying the larger id to the smaller id: afterwards
no entry carries the discarded larger id, and entries with other ids are
unchanged. -/
theorem processWire_merge_rewrites (m : List (String × Nat)) (counter v1 v2 : Nat)
    (w : Wire) (h1 : findVal m (hole_to_node w.foot1) = some v1)
    (h2 : findVal m (hole_to_node w.foot2) = some v2) (hne : v1 ≠ v2) :
    (processWire (m, counter) w).1 =
        m.map (fun kv => if kv.2 = max v1 v2 then (kv.1, min v1 v2) else kv) ∧
    (∀ (b : String) (v : Nat), findVal m b = some v →
        findVal (processWire (m, counter) w).1 b =
          some (if v = max v1 v2 then min v1 v2 else v)) ∧
    (∀ kv ∈ (processWire (m, counter) w).1, kv.2 ≠ max v1 v2) ∧
    (∀ kv ∈ m, kv.2 ≠ max v1 v2 → kv ∈ (processWire (m, counter) w).1) := by
  have heq : (processWire (m, counter) w).1 =
      m.map (fun kv => if kv.2 = max v1 v2 then (kv.1, min v1 v2) else kv) := by
    unfold processWire
    simp [h1, h2, hne]
  have hminmax : min v1 v2 ≠ max v1 v2 := by omega
  refine ⟨heq, ?_, ?_, ?_⟩
  · intro b v hv
    rw [heq, findVal_map_rewrite, hv]
    rfl
  · intro kv hkv
    rw [heq] at hkv
    obtain ⟨kv0, _, hkv0⟩ := List.mem_map.mp hkv
    by_cases hv : kv0.2 = max v1 v2
    · rw [if_pos hv] at hkv0
      rw [← hkv0]
      exact hminmax
    · rw [if_neg hv] at hkv0
      rw [← hkv0]
      exact hv
  · intro kv hkv hv
    rw [heq]
    refine List.mem_map.mpr ⟨kv, hkv, ?_⟩
    rw [if_neg hv]

/-- Witness for C8: merging ids 1 and 2 over the map
`[(A1, 1), (A2, 2), (A3, 2)]` rewrites both entries carrying 2 to 1. -/
theorem processWire_merge_rewrites_witness :
    (processWire ([("A1", 1), ("A2", 2), ("A3", 2)], 5) ⟨0, "w", "A1", "A2"⟩).1 =
      ([("A1", 1), ("A2", 2), ("A3", 2)] : List (String × Nat)).map
        (fun kv => if kv.2 = max 1 2 then (kv.1, min 1 2) else kv) ∧
    findVal (processWire ([("A1", 1), ("A2", 2), ("A3", 2)], 5) ⟨0, "w", "A1", "A2"⟩).1 "A3" =
      some (if 2 = max 1 2 then min 1 2 else 2) :=
  have h := processWire_merge_rewrites [("A1", 1), ("A2", 2), ("A3", 2)] 5 1 2
    ⟨0, "w", "A1", "A2"⟩ (by decide) (by decide) (by decide)
  ⟨h.1, h.2.1 "A3" 2 (by decide)⟩

-- Claim C10: pre-scan coverage -----------------------------------------------------

lemma scanFoot_isSome_mono (st : List (String × Nat) × Nat × List String) (f a : String)
    (h : (findVal st.1 a).isSome) : (findVal (scanFoot st f).1 a).isSome := by
  obtain ⟨x, hx⟩ := Option.isSome_iff_exists.mp h
  rw [scanFoot_preserves st f a x hx]
  rfl

lemma scanFoot_self_isSome (st : List (String × Nat) × Nat × List String) (f : String) :
    (findVal (scanFoot st f).1 (hole_to_node f)).isSome := by
  unfold scanFoot
  split
  · next h => exact h
  · show (findVal (setKey st.1 (hole_to_node f) st.2.1) (hole_to_node f)).isSome
    rw [findVal_setKey_self]
    rfl

lemma foldl_scanFoot_isSome_mono (feet : List String)
    (st : List (String × Nat) × Nat × List String) (a : String)
    (h : (findVal st.1 a).isSome) : (findVal (feet.foldl scanFoot st).1 a).isSome := by
  induction feet generalizing st with
  | nil => exact h
  | cons f rest ih =>
    rw [List.foldl_cons]
    exact ih (scanFoot st f) (scanFoot_isSome_mono st f a h)

lemma foldl_scanFoot_covers (feet : List String)
    (st : List (String × Nat) × Nat × List String) (f : String) (hf : f ∈ feet) :
    (findVal (feet.foldl scanFoot st).1 (hole_to_node f)).isSome := by
  induction feet generalizing st with
  | nil => exact absurd hf (List.not_mem_nil f)
  | cons f0 rest ih =>
    rw [List.foldl_cons]
    rcases List.mem_cons.mp hf with he | hr
    · subst he
      exact foldl_scanFoot_isSome_mono rest (scanFoot st f) (hole_to_node f)
        (scanFoot_self_isSome st f)
    · exact ih (scanFoot st f0) hr

/-- Every terminal's canonical bus is present in the mapping after the
pre-scan, no matter what initial state the pre-scan starts from. -/
lemma preScan_covers (comps : List Component)
    (st : List (String × Nat) × Nat × List String) (c : Component) (f : String)
    (hc : c ∈ comps) (hf : f ∈ c.feet) :
    (findVal (preScan comps st).1 (hole_to_node f)).isSome := by
  rw [preScan_eq_foldl]
  exact foldl_scanFoot_covers (comps.flatMap Component.feet) st f
    (List.mem_flatMap.mpr ⟨c, hc, hf⟩)

/-- C10: the serializer pre-scan inserts the canonical bus of every component
terminal into the node mapping, so the rendering walk's lookup of each
terminal's bus always succeeds. -/
theorem rendering_lookup_never_misses (comps : List Component) (wires : List Wire)
    (grounds : List String) (c : Component) (f : String) (hc : c ∈ comps)
    (hf : f ∈ c.feet) :
    (findVal (resolvedState comps wires grounds).1 (hole_to_node f)).isSome = true :=
  preScan_covers comps
    ((build_node_map wires grounds).1, (build_node_map wires grounds).2, []) c f hc hf

/-- Witness for C10: the bus of terminal `F2` of the second component is
present in the serializer mapping even though no wire or ground touches it. -/
theorem rendering_lookup_never_misses_witness :
    (findVal (resolvedState [⟨1, "Ra", ["A1", "A2"], "1k"⟩, ⟨2, "Cb", ["A9", "F2"], "10u"⟩]
      [] []).1 (hole_to_node "F2")).isSome = true :=
  rendering_lookup_never_misses
    [⟨1, "Ra", ["A1", "A2"], "1k"⟩, ⟨2, "Cb", ["A9", "F2"], "10u"⟩] [] []
    ⟨2, "Cb", ["A9", "F2"], "10u"⟩ "F2" (by simp) (by simp)

-- Claim C9: display names -----------------------------------------------------------

/-- The display name the serializer gives a component, as a function of the
components already rendered: table prefix plus a 1-based per-type sequential
index for nonnegative tags, fixed index 1 otherwise. -/
def nameOfAt (prev : List Component) (c : Component) : String :=
  id_to_suffix c.cid ++
    toString (if 0 ≤ c.cid then (prev.filter (fun c2 => c2.cid = c.cid)).length + 1 else 1)

/-- Expected display names of a component list, threading the list of already
rendered components. -/
def expectedNamesAux (prev : List Component) : List Component → List String
  | [] => []
  | c :: rest => nameOfAt prev c :: expectedNamesAux (prev ++ [c]) rest

/-- Expected display names of a component list in input order. -/
def expectedNames (comps : List Component) : List String :=
  expectedNamesAux [] comps

/-- Concatenation of a list of strings. -/
def joinAll : List String → String
  | [] => ""
  | s :: rest => s ++ joinAll rest

/-- A terminal whose bus is in the mapping always renders some token, and
every token starts with a space. -/
lemma footToken_token (m : List (String × Nat)) (flags : List String)
    (remap : List (Nat × Nat)) (nn : Nat) (node : String)
    (h : (findVal m node).isSome) :
    ∃ tok remap2 nn2, footToken m flags remap nn node = some (tok, remap2, nn2) ∧
      tok.data.head? = some ' ' := by
  obtain ⟨v, hv⟩ := Option.isSome_iff_exists.mp h
  by_cases h0 : v = 0
  · exact ⟨" 0", remap, nn, by simp [footToken, hv, h0], by decide⟩
  · by_cases hf : node ∈ flags
    · rcases hr : findNat remap v with _ | fin
      · refine ⟨" N" ++ pad4 nn, remap ++ [(v, nn)], nn + 1,
          by simp [footToken, hv, h0, hf, hr], ?_⟩
        rw [String.data_append]
        rfl
      · refine ⟨" N" ++ pad4 fin, remap, nn, by simp [footToken, hv, h0, hf, hr], ?_⟩
        rw [String.data_append]
        rfl
    · exact ⟨" NC", remap, nn, by simp [footToken, hv, h0, hf], by decide⟩

/-- Rendering the terminals of a component appends some token string to the
line, and that token string is empty or starts with a space. -/
lemma renderFeet_structure (m : List (String × Nat)) (flags : List String) :
    ∀ (feet : List String), (∀ f ∈ feet, (findVal m (hole_to_node f)).isSome) →
    ∀ (line : String) (remap : List (Nat × Nat)) (nn : Nat),
    ∃ toks remap2 nn2,
      renderFeet m flags feet line remap nn = some (line ++ toks, remap2, nn2) ∧
      (toks = "" ∨ toks.data.head? = some ' ') := by
  intro feet
  induction feet with
  | nil =>
    intro _ line remap nn
    exact ⟨"", remap, nn, by simp [renderFeet, String.append_empty], Or.inl rfl⟩
  | cons f rest ih =>
    intro h line remap nn
    obtain ⟨tok, r2, n2, htok, hhead⟩ :=
      footToken_token m flags remap nn (hole_to_node f) (h f (List.mem_cons_self f rest))
    obtain ⟨toks2, r3, n3, hrest, _⟩ :=
      ih (fun f2 hf2 => h f2 (List.mem_cons_of_mem f hf2)) (line ++ tok) r2 n2
    refine ⟨tok ++ toks2, r3, n3, ?_, ?_⟩
    · show renderFeet m flags (f :: rest) line remap nn = some (line ++ (tok ++ toks2), r3, n3)
      unfold renderFeet
      rw [htok]
      show renderFeet m flags rest (line ++ tok) r2 n2 = some (line ++ (tok ++ toks2), r3, n3)
      rw [hrest, String.append_assoc]
    · right
      rcases htd : tok.data with _ | ⟨c0, t⟩
      · rw [htd] at hhead
        exact Option.noConfusion hhead
      · rw [htd] at hhead
        have hc0 : c0 = ' ' := Option.some.inj hhead
        rw [String.data_append, htd, hc0]
        rfl

lemma tail_head (toks sp : String) (hh : toks = "" ∨ toks.data.head? = some ' ') :
    (toks ++ " " ++ sp ++ "\n").data.head? = some ' ' := by
  rcases hh with he | hh
  · subst he
    rw [String.empty_append, String.data_append, String.data_append]
    rfl
  · rw [String.data_append, String.data_append, String.data_append]
    rcases htd : toks.data with _ | ⟨c0, t⟩
    · rw [htd] at hh
      exact Option.noConfusion hh
    · rw [htd] at hh
      have hc0 : c0 = ' ' := Option.some.inj hh
      rw [hc0]
      rfl

lemma counts_get_some (counts : List Nat) (i : Nat) (h : i < counts.length) :
    counts.get? i = some (counts.get ⟨i, h⟩) := by
  rw [List.get?_eq_getElem?]
  exact List.getElem?_eq_getElem h

/-- Master structure lemma for the component walk: with in-range type tags and
all terminal buses present in the mapping, rendering succeeds and the result
is the accumulated result followed by one line per component, each line
consisting of the expected display name followed by a space-led tail. -/
lemma renderAll_structure (m : List (String × Nat)) (flags : List String) :
    ∀ (comps : List Component) (st : RState) (prev : List Component),
    (∀ c ∈ comps, c.cid < 8) →
    (∀ c ∈ comps, ∀ f ∈ c.feet, (findVal m (hole_to_node f)).isSome) →
    st.counts.length = 8 →
    (∀ k : Nat, k < 8 →
      st.counts.get? k = some ((prev.filter (fun c2 => c2.cid = (k : Int))).length)) →
    ∃ (st2 : RState) (tails : List String),
      renderAll m flags comps st = some st2 ∧
      tails.length = comps.length ∧
      (∀ t ∈ tails, t.data.head? = some ' ') ∧
      st2.result = st.result ++
        joinAll (List.zipWith (fun nm t => nm ++ t) (expectedNamesAux prev comps) tails) := by
  intro comps
  induction comps with
  | nil =>
    intro st prev _ _ _ _
    refine ⟨st, [], rfl, rfl, by simp, ?_⟩
    simp [expectedNamesAux, joinAll, String.append_empty]
  | cons c rest ih =>
    intro st prev hc hm hlen hinv
    have hlt8 : c.cid < 8 := hc c (List.mem_cons_self c rest)
    by_cases hpos : 0 ≤ c.cid
    · -- known nonnegative tag: bump the per-type counter
      have hkn : c.cid.toNat < 8 := by omega
      have hklen : c.cid.toNat < st.counts.length := by omega
      have hcast : ((c.cid.toNat : Nat) : Int) = c.cid := Int.toNat_of_nonneg hpos
      have hget : st.counts.get? c.cid.toNat =
          some (st.counts.get ⟨c.cid.toNat, hklen⟩) := counts_get_some _ _ hklen
      have hinvk := hinv c.cid.toNat hkn
      rw [hcast] at hinvk
      set v := st.counts.get ⟨c.cid.toNat, hklen⟩ with hvdef
      have hv_eq : v = (prev.filter (fun c2 => c2.cid = c.cid)).length :=
        Option.some.inj (hget.symm.trans hinvk)
      have hcn : compName st.counts c.cid =
          some (id_to_suffix c.cid ++ toString (v + 1),
            st.counts.set c.cid.toNat (v + 1)) := by
        unfold compName
        rw [if_pos hpos, hget]
      have hname : nameOfAt prev c = id_to_suffix c.cid ++ toString (v + 1) := by
        rw [nameOfAt, if_pos hpos, hv_eq]
      obtain ⟨toks, r2, n2, hrf, hh⟩ := renderFeet_structure m flags c.feet
        (hm c (List.mem_cons_self c rest)) (id_to_suffix c.cid ++ toString (v + 1))
        st.remap st.newnode
      have hrc : renderComp m flags st c =
          some (RState.mk r2 n2 (st.counts.set c.cid.toNat (v + 1))
            (st.result ++ ((id_to_suffix c.cid ++ toString (v + 1)) ++ toks ++ " " ++
              c.spec ++ "\n"))) := by
        unfold renderComp
        rw [hcn]
        show (match renderFeet m flags c.feet (id_to_suffix c.cid ++ toString (v + 1))
            st.remap st.newnode with
          | none => none
          | some (line, remap2, nn2) =>
            some (RState.mk remap2 nn2 (st.counts.set c.cid.toNat (v + 1))
              (st.result ++ (line ++ " " ++ c.spec ++ "\n")))) = _
        rw [hrf]
      have hlen2 : (st.counts.set c.cid.toNat (v + 1)).length = 8 := by
        rw [List.length_set]; exact hlen
      have hinv2 : ∀ k : Nat, k < 8 →
          (st.counts.set c.cid.toNat (v + 1)).get? k =
            some (((prev ++ [c]).filter (fun c2 => c2.cid = (k : Int))).length) := by
        intro k hk
        by_cases hkc : k = c.cid.toNat
        · subst hkc
          have hgs : (st.counts.set c.cid.toNat (v + 1)).get? c.cid.toNat = some (v + 1) := by
            rw [List.get?_eq_getElem?]
            exact List.getElem?_set_self hklen
          rw [hgs, List.filter_append]
          have hcc : c.cid = ((c.cid.toNat : Nat) : Int) := hcast.symm
          simp [List.filter, ← hcc, hv_eq]
        · have hgs : (st.counts.set c.cid.toNat (v + 1)).get? k = st.counts.get? k := by
            rw [List.get?_eq_getElem?, List.get?_eq_getElem?]
            exact List.getElem?_set_ne (fun e => hkc e.symm)
          have hcc : ¬(c.cid = (k : Int)) := by omega
          rw [hgs, hinv k hk, List.filter_append]
          simp [List.filter, hcc]
      obtain ⟨st2, tails, hra, hlent, hheads, hres⟩ :=
        ih (RState.mk r2 n2 (st.counts.set c.cid.toNat (v + 1))
            (st.result ++ ((id_to_suffix c.cid ++ toString (v + 1)) ++ toks ++ " " ++
              c.spec ++ "\n"))) (prev ++ [c])
          (fun c2 h2 => hc c2 (List.mem_cons_of_mem c h2))
          (fun c2 h2 => hm c2 (List.mem_cons_of_mem c h2)) hlen2 hinv2
      refine ⟨st2, (toks ++ " " ++ c.spec ++ "\n") :: tails, ?_, ?_, ?_, ?_⟩
      · show (match renderComp m flags st c with
          | none => none
          | some st3 => renderAll m flags rest st3) = some st2
        rw [hrc]
        exact hra
      · simp [hlent]
      · intro t ht
        rcases List.mem_cons.mp ht with he | hr
        · subst he
          exact tail_head toks c.spec hh
        · exact hheads t hr
      · rw [hres]
        show _ = st.result ++
          joinAll ((nameOfAt prev c ++ (toks ++ " " ++ c.spec ++ "\n")) ::
            List.zipWith (fun nm t => nm ++ t) (expectedNamesAux (prev ++ [c]) rest) tails)
        rw [hname, joinAll]
        simp [String.append_assoc]
    · -- negative tag: fixed index 1, counters untouched
      have hcn : compName st.counts c.cid =
          some (id_to_suffix c.cid ++ toString 1, st.counts) := by
        unfold compName
        rw [if_neg hpos]
      have hname : nameOfAt prev c = id_to_suffix c.cid ++ toString 1 := by
        rw [nameOfAt, if_neg hpos]
      obtain ⟨toks, r2, n2, hrf, hh⟩ := renderFeet_structure m flags c.feet
        (hm c (List.mem_cons_self c rest)) (id_to_suffix c.cid ++ toString 1)
        st.remap st.newnode
      have hrc : renderComp m flags st c =
          some (RState.mk r2 n2 st.counts
            (st.result ++ ((id_to_suffix c.cid ++ toString 1) ++ toks ++ " " ++
              c.spec ++ "\n"))) := by
        unfold renderComp
        rw [hcn]
        show (match renderFeet m flags c.feet (id_to_suffix c.cid ++ toString 1)
            st.remap st.newnode with
          | none => none
          | some (line, remap2, nn2) =>
            some (RState.mk remap2 nn2 st.counts
              (st.result ++ (line ++ " " ++ c.spec ++ "\n")))) = _
        rw [hrf]
      have hinv2 : ∀ k : Nat, k < 8 →
          st.counts.get? k =
            some (((prev ++ [c]).filter (fun c2 => c2.cid = (k : Int))).length) := by
        intro k hk
        have hcc : ¬(c.cid = (k : Int)) := by omega
        rw [hinv k hk, List.filter_append]
        simp [List.filter, hcc]
      obtain ⟨st2, tails, hra, hlent, hheads, hres⟩ :=
        ih (RState.mk r2 n2 st.counts
            (st.result ++ ((id_to_suffix c.cid ++ toString 1) ++ toks ++ " " ++
              c.spec ++ "\n"))) (prev ++ [c])
          (fun c2 h2 => hc c2 (List.mem_cons_of_mem c h2))
          (fun c2 h2 => hm c2 (List.mem_cons_of_mem c h2)) hlen hinv2
      refine ⟨st2, (toks ++ " " ++ c.spec ++ "\n") :: tails, ?_, ?_, ?_, ?_⟩
      · show (match renderComp m flags st c with
          | none => none
          | some st3 => renderAll m flags rest st3) = some st2
        rw [hrc]
        exact hra
      · simp [hlent]
      · intro t ht
        rcases List.mem_cons.mp ht with he | hr
        · subst he
          exact tail_head toks c.spec hh
        · exact hheads t hr
      · rw [hres]
        show _ = st.result ++
          joinAll ((nameOfAt prev c ++ (toks ++ " " ++ c.spec ++ "\n")) ::
            List.zipWith (fun nm t => nm ++ t) (expectedNamesAux (prev ++ [c]) rest) tails)
        rw [hname, joinAll]
        simp [String.append_assoc]

/-- C9: the rendered line of every component starts with the display name
given by the fixed prefix table, where nonnegative known tags carry a
1-based per-type sequential index in input order and the source tag -1
always renders index 1 (so multiple sources collide on `V1`); the rest of
each line is a space-led tail and the output ends with the fixed trailer. -/
theorem netlist_display_names (comps : List Component) (wires : List Wire)
    (grounds : List String) (h : ∀ c ∈ comps, c.cid < 8) :
    (id_to_suffix (-1) = "V" ∧ id_to_suffix 0 = "wire" ∧ id_to_suffix 1 = "R" ∧
      id_to_suffix 2 = "C" ∧ id_to_suffix 3 = "I" ∧ id_to_suffix 4 = "MOST" ∧
      id_to_suffix 5 = "CIRT" ∧ id_to_suffix 6 = "LED" ∧ id_to_suffix 7 = "IC") ∧
    (∀ (prev : List Component) (c : Component), c.cid = -1 → nameOfAt prev c = "V1") ∧
    ∃ tails : List String, tails.length = comps.length ∧
      (∀ t ∈ tails, t.data.head? = some ' ') ∧
      generate_spice_netlist comps wires grounds =
        some (joinAll (List.zipWith (fun nm t => nm ++ t) (expectedNames comps) tails) ++
          ".backanno\n.end\n") := by
  refine ⟨⟨rfl, rfl, rfl, rfl, rfl, rfl, rfl, rfl, rfl⟩, ?_, ?_⟩
  · intro prev c hm1
    rw [nameOfAt, hm1, if_neg (by omega)]
    decide
  · obtain ⟨st2, tails, hra, hlen2, hheads, hres⟩ :=
      renderAll_structure (resolvedState comps wires grounds).1
        (resolvedState comps wires grounds).2.2 comps
        (RState.mk [] 1 (List.replicate 8 0) "") [] h
        (fun c hc2 f hf => preScan_covers comps
          ((build_node_map wires grounds).1, (build_node_map wires grounds).2, []) c f hc2 hf)
        (by simp)
        (by
          intro k hk
          rw [List.get?_eq_getElem?, List.getElem?_replicate]
          simp [hk, List.filter])
    refine ⟨tails, hlen2, hheads, ?_⟩
    unfold generate_spice_netlist
    rw [hra]
    show some (st2.result ++ ".backanno\n.end\n") = _
    rw [hres]
    show some (("" ++
      joinAll (List.zipWith (fun nm t => nm ++ t) (expectedNamesAux [] comps) tails)) ++
        ".backanno\n.end\n") = _
    rw [String.empty_append]
    rfl

/-- Witness for C9: two independent sources (tag -1) and two resistors
(tag 1); the sources both render as `V1` while the resistors are numbered
`R1`, `R2` sequentially. -/
theorem netlist_display_names_witness :
    (id_to_suffix (-1) = "V" ∧ id_to_suffix 0 = "wire" ∧ id_to_suffix 1 = "R" ∧
      id_to_suffix 2 = "C" ∧ id_to_suffix 3 = "I" ∧ id_to_suffix 4 = "MOST" ∧
      id_to_suffix 5 = "CIRT" ∧ id_to_suffix 6 = "LED" ∧ id_to_suffix 7 = "IC") ∧
    (∀ (prev : List Component) (c : Component), c.cid = -1 → nameOfAt prev c = "V1") ∧
    ∃ tails : List String,
      tails.length = ([⟨-1, "Va", ["A1"], "5"⟩, ⟨-1, "Vb", ["A2"], "9"⟩,
        ⟨1, "r1", ["A3"], "1k"⟩, ⟨1, "r2", ["A4"], "2k"⟩] : List Component).length ∧
      (∀ t ∈ tails, t.data.head? = some ' ') ∧
      generate_spice_netlist [⟨-1, "Va", ["A1"], "5"⟩, ⟨-1, "Vb", ["A2"], "9"⟩,
          ⟨1, "r1", ["A3"], "1k"⟩, ⟨1, "r2", ["A4"], "2k"⟩] [] [] =
        some (joinAll (List.zipWith (fun nm t => nm ++ t)
          (expectedNames [⟨-1, "Va", ["A1"], "5"⟩, ⟨-1, "Vb", ["A2"], "9"⟩,
            ⟨1, "r1", ["A3"], "1k"⟩, ⟨1, "r2", ["A4"], "2k"⟩]) tails) ++
          ".backanno\n.end\n") :=
  netlist_display_names [⟨-1, "Va", ["A1"], "5"⟩, ⟨-1, "Vb", ["A2"], "9"⟩,
    ⟨1, "r1", ["A3"], "1k"⟩, ⟨1, "r2", ["A4"], "2k"⟩] [] [] (by decide)
